import Mathlib

/-!
Verification of the llm-council frontend core against its specification.

The development shallowly embeds the JavaScript source:

* `stepMsg` / `stepLoading` / `applyEventToConv` embed the per-event state
  reduction performed by the `sendMessageStream` callback in
  `App.jsx` (`handleSendMessage`), which folds the streamed pipeline
  events (`stage1_start`, `stage1_response`, ..., `error`) into the last
  message of the current conversation.
* `deAnonymizeText` embeds the pure text transform of the same name in
  `Stage2.jsx`; texts are modelled as `List Char` and the JavaScript
  `String.replace(new RegExp(label, 'g'), repl)` call is modelled as
  leftmost, non-overlapping, global literal replacement (`jsReplaceAll`),
  which coincides with the JavaScript behaviour for labels free of regex
  metacharacters; the degenerate empty-pattern behaviour of a JavaScript
  global regex (a match at every position) is modelled by
  `replaceEmptyPat`.
* `processFile` / `addImages` embed the attachment validation in
  `ChatInterface.jsx`.
* `handleRemoveModel_v1` / `handleRemoveModel_v2` embed the two copies of
  `handleRemoveModel` in `Settings.jsx` (first and second copy in file
  order).  Configuration fields not touched by those handlers are omitted.

JavaScript `undefined`/`null` struct fields are modelled with `Option`;
`x || []` becomes `Option.getD x []`.
-/

namespace LlmCouncil

/-- A `stage1_response` arrival record / `stage1_complete` data entry:
`{model, response}` or `{model, failed:true}`. -/
structure RespData where
  model : String
  response : String
  failed : Bool
deriving DecidableEq

/-- A `stage2_response` arrival record / `stage2_complete` data entry:
`{model, ranking, parsed_ranking}` or `{model, failed:true}`. -/
structure RankData where
  model : String
  ranking : String
  parsed_ranking : List String
  failed : Bool
deriving DecidableEq

/-- One `aggregate_rankings` leaderboard entry
`{model, average_rank, rankings_count}`.  The reducer only stores these
values, so `average_rank` (a JS float) is modelled as a rational. -/
structure AggEntry where
  model : String
  average_rank : Rat
  rankings_count : Nat
deriving DecidableEq

/-- The `metadata` object attached to `stage2_start`/`stage2_complete`
events: `{label_to_model, aggregate_rankings}`, each possibly absent. -/
structure Metadata where
  label_to_model : Option (List (String × String))
  aggregate_rankings : Option (List AggEntry)
deriving DecidableEq

instance : Inhabited Metadata := ⟨⟨none, none⟩⟩

/-- The per-turn assistant message state built by the reducer
(`assistantMessage` in `App.jsx` plus the fields the event callback adds:
`stage1PendingModels`, `stage2PendingModels`). -/
structure Msg where
  stage1 : Option (List RespData)
  stage2 : Option (List RankData)
  stage3 : Option String
  metadata : Option Metadata
  loadingStage1 : Bool
  loadingStage2 : Bool
  loadingStage3 : Bool
  stage1PendingModels : Option (List String)
  stage2PendingModels : Option (List String)
deriving DecidableEq

/-- The freshly created partial assistant message of `handleSendMessage`:
all stage results `null`, all loading flags `false`, pending lists not yet
present. -/
def initMsg : Msg :=
  { stage1 := none, stage2 := none, stage3 := none, metadata := none,
    loadingStage1 := false, loadingStage2 := false, loadingStage3 := false,
    stage1PendingModels := none, stage2PendingModels := none }

/-- The typed events of the per-turn stream (spec section 6), as consumed by
the `sendMessageStream` callback. -/
inductive Event where
  | stage1_start (models : List String)
  | stage1_response (data : RespData)
  | stage1_complete (data : List RespData)
  | stage2_start (models : List String) (metadata : Option Metadata)
  | stage2_response (data : RankData)
  | stage2_complete (data : List RankData) (metadata : Option Metadata)
  | stage3_start
  | stage3_complete (data : String)
  | title_complete
  | complete
  | error (message : String)

/-- One step of the client state reducer: the `switch (eventType)` body of
the `sendMessageStream` callback in `App.jsx`, restricted to its effect on
the last message (`lastMsg`).  `title_complete`, `complete`, `error` and
unknown events do not touch the message. -/
def stepMsg (m : Msg) (e : Event) : Msg :=
  match e with
  | .stage1_start models =>
    { m with loadingStage1 := true, stage1 := some [],
             stage1PendingModels := some models }
  | .stage1_response d =>
    { m with
      stage1PendingModels :=
        some ((m.stage1PendingModels.getD []).filter (fun x => x ≠ d.model)),
      stage1 :=
        if d.failed = false ∧
            d.model ∉ (m.stage1.getD []).map (fun r => r.model) then
          some (m.stage1.getD [] ++ [d])
        else m.stage1 }
  | .stage1_complete data =>
    { m with stage1 := some data, loadingStage1 := false,
             stage1PendingModels := some [] }
  | .stage2_start models meta =>
    let md' : Option Metadata :=
      match meta with
      | some md =>
        match md.label_to_model with
        | some lm =>
          some { m.metadata.getD default with label_to_model := some lm }
        | none => m.metadata
      | none => m.metadata
    { m with loadingStage2 := true, stage2 := some [],
             stage2PendingModels := some models, metadata := md' }
  | .stage2_response d =>
    { m with
      stage2PendingModels :=
        some ((m.stage2PendingModels.getD []).filter (fun x => x ≠ d.model)),
      stage2 :=
        if d.failed = false ∧
            d.model ∉ (m.stage2.getD []).map (fun r => r.model) then
          some (m.stage2.getD [] ++ [d])
        else m.stage2 }
  | .stage2_complete data meta =>
    { m with stage2 := some data, metadata := meta, loadingStage2 := false,
             stage2PendingModels := some [] }
  | .stage3_start => { m with loadingStage3 := true }
  | .stage3_complete s => { m with stage3 := some s, loadingStage3 := false }
  | .title_complete => m
  | .complete => m
  | .error _ => m

/-- Effect of one event on the app-level `isLoading` flag: only `complete`
and `error` call `setIsLoading(false)` inside the callback. -/
def stepLoading (l : Bool) (e : Event) : Bool :=
  match e with
  | .complete => false
  | .error _ => false
  | _ => l

/-- Replace the last element of a list, if any, by its image under `f`
(the callback's `messages[messages.length - 1]` in-place update followed by
`return {...prev, messages}`). -/
def updateLast (msgs : List Msg) (f : Msg → Msg) : List Msg :=
  match msgs.getLast? with
  | none => []
  | some m => msgs.dropLast ++ [f m]

/-- Conversation-level effect of one streamed event: every state-mutating
case of the callback rewrites `messages[messages.length - 1]`; the code
carries no turn identifier, so the event is always applied to the current
last message. -/
def applyEventToConv (msgs : List Msg) (e : Event) : List Msg :=
  updateLast msgs (fun m => stepMsg m e)

/-- C1.  The `stage1_complete` / `stage2_complete` cases assign
`lastMsg.stageN = event.data` unconditionally, so the final accumulated
list equals the completion payload whatever arrival events preceded it. -/
theorem reducer_convergence (m : Msg)
    (arr1 : List RespData) (fin1 : List RespData)
    (arr2 : List RankData) (fin2 : List RankData) (meta : Option Metadata) :
    (List.foldl stepMsg m
      (arr1.map Event.stage1_response ++ [Event.stage1_complete fin1])).stage1
      = some fin1
    ∧ (List.foldl stepMsg m
      (arr2.map Event.stage2_response ++
        [Event.stage2_complete fin2 meta])).stage2 = some fin2 := by
  constructor <;> rw [List.foldl_append] <;> rfl

/-- C7.  The `error` case only logs and clears the app-level loading flag:
the last message, hence all accumulated stage output (stage1 list, stage2
list, stage3 text, metadata), is left untouched. -/
theorem error_event_frame (m : Msg) (l : Bool) (s : String) :
    stepMsg m (.error s) = m ∧ stepLoading l (.error s) = false := by
  exact ⟨rfl, rfl⟩

/-- Number of entries for model `x` in an accumulated stage list, counting
through the projection `f` to the entry's model identifier. -/
def countBy {α : Type} (f : α → String) (x : String) (l : List α) : Nat :=
  (l.filter (fun r => f r = x)).length

lemma countBy_append {α : Type} (f : α → String) (x : String)
    (l1 l2 : List α) :
    countBy f x (l1 ++ l2) = countBy f x l1 + countBy f x l2 := by
  simp [countBy]

lemma countBy_eq_zero_of_not_mem_map {α : Type} {f : α → String} {x : String}
    {l : List α} (h : x ∉ l.map f) : countBy f x l = 0 := by
  unfold countBy
  rw [List.length_eq_zero, List.filter_eq_nil_iff]
  intro r hr hrm
  exact h (List.mem_map.mpr ⟨r, hr, by simpa using hrm⟩)

/-- Appending an arrival entry whose model is not yet present keeps the
per-model count of that stage's list at most one. -/
lemma countBy_stage_step {α : Type} (f : α → String) (x : String)
    (l : List α) (d : α) (hl : countBy f x l ≤ 1)
    (hd : f d ∉ l.map f) : countBy f x (l ++ [d]) ≤ 1 := by
  rw [countBy_append]
  by_cases hx : f d = x
  · have h0 : countBy f x l = 0 := countBy_eq_zero_of_not_mem_map (hx ▸ hd)
    have h1 : countBy f x [d] ≤ 1 := by
      simp [countBy, List.filter, hx]
    omega
  · have h1 : countBy f x [d] = 0 := by
      simp [countBy, List.filter, hx]
    omega

/-- Per-model count of stage-1 entries in a message. -/
def stage1Count (x : String) (m : Msg) : Nat :=
  countBy RespData.model x (m.stage1.getD [])

/-- Per-model count of stage-2 entries in a message. -/
def stage2Count (x : String) (m : Msg) : Nat :=
  countBy RankData.model x (m.stage2.getD [])

lemma stage1Count_step (m : Msg) (d : RespData) (x : String)
    (h : stage1Count x m ≤ 1) :
    stage1Count x (stepMsg m (.stage1_response d)) ≤ 1 := by
  dsimp only [stage1Count, stepMsg]
  split
  next hc =>
    rw [Option.getD_some]
    exact countBy_stage_step _ _ _ _ h hc.2
  next hc => exact h

lemma stage2Count_step (m : Msg) (d : RankData) (x : String)
    (h : stage2Count x m ≤ 1) :
    stage2Count x (stepMsg m (.stage2_response d)) ≤ 1 := by
  dsimp only [stage2Count, stepMsg]
  split
  next hc =>
    rw [Option.getD_some]
    exact countBy_stage_step _ _ _ _ h hc.2
  next hc => exact h

/-- C2.  Duplicate arrival events are harmless: in each stage the reducer
appends an arrival only after checking (`existingModels.includes`) that no
entry for that model is present, so from any state with at most one entry
for a model, two arrivals for that model still leave at most one entry. -/
theorem duplicate_safety (m : Msg) (x : String)
    (d1 d2 : RespData) (e1 e2 : RankData)
    (hd1 : d1.model = x) (hd2 : d2.model = x)
    (he1 : e1.model = x) (he2 : e2.model = x)
    (h1 : stage1Count x m ≤ 1) (h2 : stage2Count x m ≤ 1) :
    stage1Count x
      (stepMsg (stepMsg m (.stage1_response d1)) (.stage1_response d2)) ≤ 1
    ∧ stage2Count x
      (stepMsg (stepMsg m (.stage2_response e1)) (.stage2_response e2)) ≤ 1 := by
  refine ⟨?_, ?_⟩
  · exact stage1Count_step _ d2 x (stage1Count_step _ d1 x h1)
  · exact stage2Count_step _ e2 x (stage2Count_step _ e1 x h2)

/-- Witness for C2 at concrete inputs: a fresh stage, two identical
successful arrivals for model `m1`. -/
theorem duplicate_safety_witness :
    stage1Count "m1"
      (stepMsg (stepMsg (stepMsg initMsg (.stage1_start ["m1", "m2"]))
        (.stage1_response ⟨"m1", "hello", false⟩))
        (.stage1_response ⟨"m1", "hello", false⟩)) ≤ 1
    ∧ stage2Count "m1"
      (stepMsg (stepMsg (stepMsg initMsg (.stage2_start ["m1", "m2"] none))
        (.stage2_response ⟨"m1", "rank", [], false⟩))
        (.stage2_response ⟨"m1", "rank", [], false⟩)) ≤ 1 := by
  have h := duplicate_safety (stepMsg initMsg (.stage1_start ["m1", "m2"]))
    "m1" ⟨"m1", "hello", false⟩ ⟨"m1", "hello", false⟩
    ⟨"m1", "rank", [], false⟩ ⟨"m1", "rank", [], false⟩
    rfl rfl rfl rfl (by decide) (by decide)
  have h' := duplicate_safety (stepMsg initMsg (.stage2_start ["m1", "m2"] none))
    "m1" ⟨"m1", "hello", false⟩ ⟨"m1", "hello", false⟩
    ⟨"m1", "rank", [], false⟩ ⟨"m1", "rank", [], false⟩
    rfl rfl rfl rfl (by decide) (by decide)
  exact ⟨h.1, h'.2⟩

/-- C4 (amended).  Within a stage the pending set starts as the start
event's model list, each arrival (success or failed alike) removes exactly
that event's model (a filter, hence never growing the list), and after the
completion event it is empty.  (It can already be empty before completion:
see the accompanying counterexample theorem.) -/
theorem pendingset_monotone (m : Msg) (models1 models2 : List String)
    (d : RespData) (e : RankData) (fin1 : List RespData)
    (fin2 : List RankData) (meta meta' : Option Metadata) :
    (stepMsg m (.stage1_start models1)).stage1PendingModels = some models1
    ∧ (stepMsg m (.stage1_response d)).stage1PendingModels =
        some ((m.stage1PendingModels.getD []).filter (fun x => x ≠ d.model))
    ∧ ((m.stage1PendingModels.getD []).filter (fun x => x ≠ d.model)).length
        ≤ (m.stage1PendingModels.getD []).length
    ∧ (stepMsg m (.stage1_complete fin1)).stage1PendingModels = some []
    ∧ (stepMsg m (.stage2_start models2 meta)).stage2PendingModels =
        some models2
    ∧ (stepMsg m (.stage2_response e)).stage2PendingModels =
        some ((m.stage2PendingModels.getD []).filter (fun x => x ≠ e.model))
    ∧ ((m.stage2PendingModels.getD []).filter (fun x => x ≠ e.model)).length
        ≤ (m.stage2PendingModels.getD []).length
    ∧ (stepMsg m (.stage2_complete fin2 meta')).stage2PendingModels =
        some [] := by
  refine ⟨rfl, rfl, List.length_filter_le _ _, rfl, rfl, rfl,
    List.length_filter_le _ _, rfl⟩

/-- C4 counterexample to "empty exactly when the completion event has been
processed": after `stage1_start {models:[m1]}` and the single arrival
`stage1_response {m1}`, the pending set is already empty although no
`stage1_complete` has been processed (the stage-1 loading flag set by the
start event is still `true`; only the completion event clears it). -/
theorem pendingset_empty_before_complete :
    (stepMsg (stepMsg initMsg (.stage1_start ["m1"]))
      (.stage1_response ⟨"m1", "hello", false⟩)).stage1PendingModels = some []
    ∧ (stepMsg (stepMsg initMsg (.stage1_start ["m1"]))
      (.stage1_response ⟨"m1", "hello", false⟩)).loadingStage1 = true := by
  exact ⟨by decide, rfl⟩

/-- C8.  An arrival event with `failed:true` only removes its model from
the stage's pending set: the accumulated list, the loading flags and every
other field are untouched, so neither the stage nor the turn is aborted
and subsequent events are processed from an otherwise unchanged state. -/
theorem failed_arrival_isolated (m : Msg) (d : RespData) (e : RankData)
    (hd : d.failed = true) (he : e.failed = true) :
    stepMsg m (.stage1_response d) =
      { m with
        stage1PendingModels :=
          some ((m.stage1PendingModels.getD []).filter (fun x => x ≠ d.model)) }
    ∧ stepMsg m (.stage2_response e) =
      { m with
        stage2PendingModels :=
          some ((m.stage2PendingModels.getD []).filter (fun x => x ≠ e.model)) } := by
  constructor
  · dsimp only [stepMsg]
    rw [if_neg (by simp [hd])]
  · dsimp only [stepMsg]
    rw [if_neg (by simp [he])]

/-- Witness for C8 at a concrete input: a failed arrival for `m1` removes
`m1` from the pending set and records nothing. -/
theorem failed_arrival_isolated_witness :
    stepMsg (stepMsg initMsg (.stage1_start ["m1", "m2"]))
        (.stage1_response ⟨"m1", "", true⟩) =
      { stepMsg initMsg (.stage1_start ["m1", "m2"]) with
        stage1PendingModels := some ["m2"] } := by
  have h := (failed_arrival_isolated (stepMsg initMsg (.stage1_start ["m1", "m2"]))
    ⟨"m1", "", true⟩ ⟨"m1", "", [], true⟩ rfl rfl).1
  rw [h]
  decide

/-- C3 (code bug).  The event callback always rewrites
`messages[messages.length - 1]`, and events carry no turn identifier, so a
late event of a superseded turn is folded into the newest turn's message.
Concretely: `oldTurnMsg` is a finished turn, `newTurnMsg` is a fresh turn
waiting on model `m2` with an empty stage-1 list; the stale arrival
`stage1_response {model:m-old}` of the old turn mutates `newTurnMsg`,
merging the old turn's data into the new turn's stage-1 list. -/
theorem stale_turn_event_mutates_new_turn :
    (applyEventToConv
        [{ initMsg with stage1 := some [⟨"m-old", "done", false⟩],
                        stage3 := some "final" },
         { initMsg with stage1 := some [], loadingStage1 := true,
                        stage1PendingModels := some ["m2"] }]
        (.stage1_response ⟨"m-old", "stale", false⟩)).getLast? =
      some { initMsg with stage1 := some [⟨"m-old", "stale", false⟩],
                          loadingStage1 := true,
                          stage1PendingModels := some ["m2"] }
    ∧ ({ initMsg with stage1 := some [], loadingStage1 := true,
                      stage1PendingModels := some ["m2"] } : Msg).stage1
        = some [] := by
  exact ⟨by decide, rfl⟩

/-! ### Attachment validation (`ChatInterface.jsx`) -/

/-- A browser `File` as far as the validation code inspects it: its MIME
`type`, its `size` in bytes, and the data URL the `FileReader` would
produce for it. -/
structure JsFile where
  ftype : String
  size : Nat
  dataUrl : String
deriving DecidableEq

/-- `MAX_FILE_SIZE = 10 * 1024 * 1024` (10MB). -/
def MAX_FILE_SIZE : Nat := 10 * 1024 * 1024

/-- `MAX_IMAGES = 4`. -/
def MAX_IMAGES : Nat := 4

/-- `ALLOWED_TYPES`. -/
def ALLOWED_TYPES : List String :=
  ["image/jpeg", "image/png", "image/gif", "image/webp"]

/-- `processFile`: reject a disallowed MIME type, then reject a file larger
than 10MB, otherwise read the file into a data URL. -/
def processFile (f : JsFile) : Except String String :=
  if f.ftype ∉ ALLOWED_TYPES then
    .error ("Invalid file type: " ++ f.ftype ++ ". Allowed: PNG, JPEG, GIF, WebP")
  else if f.size > MAX_FILE_SIZE then
    .error "File too large. Max: 10MB"
  else
    .ok f.dataUrl

/-- The loop body of `addImages`: `cur` is `images.length`, `acc` is
`newImages`.  The loop breaks (`break` after the alert) once
`images.length + newImages.length >= MAX_IMAGES`; a rejected file only
alerts and is skipped. -/
def addImagesGo (cur : Nat) (acc : List String) : List JsFile → List String
  | [] => acc
  | f :: rest =>
    if cur + acc.length ≥ MAX_IMAGES then acc
    else
      match processFile f with
      | .ok url => addImagesGo cur (acc ++ [url]) rest
      | .error _ => addImagesGo cur acc rest

/-- `addImages`: the resulting `images` state after
`setImages(prev => [...prev, ...newImages])`. -/
def addImages (images : List String) (files : List JsFile) : List String :=
  images ++ addImagesGo images.length [] files

lemma addImagesGo_mem {files : List JsFile} :
    ∀ {cur : Nat} {acc : List String} {u : String},
      u ∈ addImagesGo cur acc files →
      u ∈ acc ∨ ∃ f, f ∈ files ∧ processFile f = .ok u := by
  induction files with
  | nil =>
    intro cur acc u hu
    exact Or.inl hu
  | cons f rest ih =>
    intro cur acc u hu
    dsimp only [addImagesGo] at hu
    split at hu
    · exact Or.inl hu
    · split at hu
      next url heq =>
        rcases ih hu with hacc | ⟨g, hg, hgu⟩
        · rcases List.mem_append.mp hacc with h | h
          · exact Or.inl h
          · refine Or.inr ⟨f, List.mem_cons_self f rest, ?_⟩
            rw [heq]
            simp only [List.mem_singleton] at h
            rw [h]
        · exact Or.inr ⟨g, List.mem_cons_of_mem f hg, hgu⟩
      next heq =>
        rcases ih hu with hacc | ⟨g, hg, hgu⟩
        · exact Or.inl hacc
        · exact Or.inr ⟨g, List.mem_cons_of_mem f hg, hgu⟩

lemma addImagesGo_length {files : List JsFile} :
    ∀ {cur : Nat} {acc : List String},
      cur + (addImagesGo cur acc files).length ≤
        max (cur + acc.length) MAX_IMAGES := by
  induction files with
  | nil =>
    intro cur acc
    dsimp only [addImagesGo]
    omega
  | cons f rest ih =>
    intro cur acc
    dsimp only [addImagesGo]
    split
    next => omega
    next hlt =>
      split
      next url heq =>
        have := @ih cur (acc ++ [url])
        simp only [List.length_append, List.length_singleton] at this
        omega
      next heq => exact le_trans ih (by omega)

/-- Unfolding of a successful `processFile`: the file's type is allowed,
its size is within the 10MB bound, and the produced string is its data
URL. -/
lemma processFile_ok {f : JsFile} {u : String} (h : processFile f = .ok u) :
    f.ftype ∈ ALLOWED_TYPES ∧ f.size ≤ MAX_FILE_SIZE ∧ u = f.dataUrl := by
  dsimp only [processFile] at h
  split at h
  · exact absurd h (by simp)
  · split at h
    · exact absurd h (by simp)
    · next h1 h2 =>
      refine ⟨by simpa using h1, by omega, ?_⟩
      cases h
      rfl

/-- C9.  Attachment validation happens before dispatch: a file with a MIME
type outside PNG/JPEG/GIF/WebP or larger than 10MB is rejected by
`processFile` with an error; every data URL in the attached-image list is
either previously attached or comes from a file that passed both checks;
and starting from at most `MAX_IMAGES` attached images, `addImages` never
lets the list exceed `MAX_IMAGES` (= 4), refusing further files. -/
theorem input_validation_before_dispatch
    (f : JsFile) (images : List String) (files : List JsFile) (u : String)
    (hbad : f.ftype ∉ ALLOWED_TYPES ∨ f.size > MAX_FILE_SIZE)
    (hmem : u ∈ addImages images files)
    (hlen : images.length ≤ MAX_IMAGES) :
    (∃ e, processFile f = .error e)
    ∧ (u ∈ images ∨ ∃ g, g ∈ files ∧ g.ftype ∈ ALLOWED_TYPES ∧
        g.size ≤ MAX_FILE_SIZE ∧ u = g.dataUrl)
    ∧ (addImages images files).length ≤ MAX_IMAGES := by
  refine ⟨?_, ?_, ?_⟩
  · dsimp only [processFile]
    rcases hbad with hb | hb
    · rw [if_pos hb]
      exact ⟨_, rfl⟩
    · by_cases ht : f.ftype ∉ ALLOWED_TYPES
      · rw [if_pos ht]
        exact ⟨_, rfl⟩
      · rw [if_neg ht, if_pos hb]
        exact ⟨_, rfl⟩
  · rcases List.mem_append.mp hmem with h | h
    · exact Or.inl h
    · rcases addImagesGo_mem h with h' | ⟨g, hg, hgu⟩
      · exact absurd h' (List.not_mem_nil u)
      · obtain ⟨ht, hs, hu⟩ := processFile_ok hgu
        exact Or.inr ⟨g, hg, ht, hs, hu⟩
  · have := @addImagesGo_length files images.length []
    simp only [List.length_nil, Nat.add_zero] at this
    dsimp only [addImages]
    rw [List.length_append]
    omega

/-- Witness for C9 at concrete inputs: an oversized PDF is rejected, and
four files added to an image already present yield at most four images. -/
theorem input_validation_before_dispatch_witness :
    (∃ e, processFile ⟨"application/pdf", 11 * 1024 * 1024, "d0"⟩ = .error e)
    ∧ ("d1" ∈ ["d1"] ∨ ∃ g, g ∈ ([⟨"image/png", 5, "d2"⟩,
        ⟨"image/png", 6, "d3"⟩, ⟨"image/png", 7, "d4"⟩,
        ⟨"image/png", 8, "d5"⟩] : List JsFile) ∧ g.ftype ∈ ALLOWED_TYPES ∧
        g.size ≤ MAX_FILE_SIZE ∧ "d1" = g.dataUrl)
    ∧ (addImages ["d1"] [⟨"image/png", 5, "d2"⟩, ⟨"image/png", 6, "d3"⟩,
        ⟨"image/png", 7, "d4"⟩, ⟨"image/png", 8, "d5"⟩]).length
        ≤ MAX_IMAGES := by
  exact input_validation_before_dispatch
    ⟨"application/pdf", 11 * 1024 * 1024, "d0"⟩
    ["d1"]
    [⟨"image/png", 5, "d2"⟩, ⟨"image/png", 6, "d3"⟩,
     ⟨"image/png", 7, "d4"⟩, ⟨"image/png", 8, "d5"⟩]
    "d1" (Or.inl (by decide)) (by decide) (by decide)

/-! ### Council configuration editing (`Settings.jsx`) -/

/-- The configuration fields the remove/add handlers touch. -/
structure Config where
  council_models : List String
  chairman_model : String
deriving DecidableEq

/-- First copy of `handleRemoveModel` (collapsible settings panel): when
more than one model remains, drop the model and, if it was the chairman,
promote the head of the REMAINING list (`nextModels[0]`); a JS `undefined`
read on an empty remaining list is modelled as `""`.  With one model left
it only sets an error message, leaving the configuration unchanged. -/
def handleRemoveModel_v1 (c : Config) (model : String) : Config :=
  if c.council_models.length > 1 then
    let nextModels := c.council_models.filter (fun m => m ≠ model)
    { council_models := nextModels,
      chairman_model :=
        if c.chairman_model = model then nextModels.headD ""
        else c.chairman_model }
  else c

/-- Second copy of `handleRemoveModel` (modal settings panel): identical
except that the replacement chairman is `config.council_models[0]`, the
head of the OLD list, which may be the very model being removed. -/
def handleRemoveModel_v2 (c : Config) (model : String) : Config :=
  if c.council_models.length > 1 then
    { council_models := c.council_models.filter (fun m => m ≠ model),
      chairman_model :=
        if c.chairman_model = model then c.council_models.headD ""
        else c.chairman_model }
  else c

/-- C10 counterexample: the second copy of `handleRemoveModel` promotes
the head of the OLD council list.  Removing model "a" (both chairman and
list head) from `{council_models:["a","b"], chairman_model:"a"}` yields
`{council_models:["b"], chairman_model:"a"}`: the chairman is no longer a
member of the council. -/
theorem chairman_membership_cex :
    handleRemoveModel_v2 ⟨["a", "b"], "a"⟩ "a" = ⟨["b"], "a"⟩
    ∧ "a" ∉ (handleRemoveModel_v2 ⟨["a", "b"], "a"⟩ "a").council_models := by
  exact ⟨by decide, by decide⟩

lemma filter_ne_nonempty {l : List String} {m : String}
    (hnd : l.Nodup) (hlen : 2 ≤ l.length) :
    l.filter (fun x => x ≠ m) ≠ [] := by
  match l, hlen with
  | a :: b :: t, _ =>
    have hab : a ≠ b := by
      have := List.nodup_cons.mp hnd
      exact fun h => this.1 (h ▸ List.mem_cons_self b t)
    by_cases ham : a = m
    · have hbm : b ≠ m := fun h => hab (ham.trans h.symm)
      intro hnil
      have : b ∈ List.filter (fun x => decide (x ≠ m)) (a :: b :: t) := by
        rw [List.mem_filter]
        exact ⟨List.mem_cons_of_mem a (List.mem_cons_self b t), by simpa using hbm⟩
      rw [hnil] at this
      exact List.not_mem_nil b this
    · intro hnil
      have : a ∈ List.filter (fun x => decide (x ≠ m)) (a :: b :: t) := by
        rw [List.mem_filter]
        exact ⟨List.mem_cons_self a (b :: t), by simpa using ham⟩
      rw [hnil] at this
      exact List.not_mem_nil a this

lemma headD_mem {l : List String} (h : l ≠ []) : l.headD "" ∈ l := by
  match l, h with
  | a :: t, _ => exact List.mem_cons_self a t

/-- C10 (amended).  The FIRST copy of `handleRemoveModel` preserves
chairman membership: for a duplicate-free council containing the chairman
and at least two models, removing any model leaves the chairman a member
of the resulting council (the chairman survives the filter when it is not
the removed model, and otherwise the head of the remaining list is
promoted); with a single remaining model the removal is refused and the
configuration is unchanged. -/
theorem chairman_membership_preserved (c : Config) (model : String)
    (hnd : c.council_models.Nodup)
    (hmem : c.chairman_model ∈ c.council_models)
    (hlen : 2 ≤ c.council_models.length) :
    ((handleRemoveModel_v1 c model).chairman_model ∈
      (handleRemoveModel_v1 c model).council_models)
    ∧ ∀ c' : Config, ∀ m' : String, c'.council_models.length ≤ 1 →
        handleRemoveModel_v1 c' m' = c' := by
  constructor
  · dsimp only [handleRemoveModel_v1]
    rw [if_pos (by omega)]
    by_cases hc : c.chairman_model = model
    · rw [if_pos hc]
      exact headD_mem (filter_ne_nonempty hnd hlen)
    · rw [if_neg hc]
      rw [List.mem_filter]
      exact ⟨hmem, by simpa using hc⟩
  · intro c' m' hlen'
    dsimp only [handleRemoveModel_v1]
    rw [if_neg (by omega)]

/-- Witness for C10 at concrete inputs: removing the chairman "a" from
the two-model council ["a","b"] promotes "b", and removal from a
single-model council is refused. -/
theorem chairman_membership_preserved_witness :
    ((handleRemoveModel_v1 ⟨["a", "b"], "a"⟩ "a").chairman_model ∈
      (handleRemoveModel_v1 ⟨["a", "b"], "a"⟩ "a").council_models)
    ∧ ∀ c' : Config, ∀ m' : String, c'.council_models.length ≤ 1 →
        handleRemoveModel_v1 c' m' = c' := by
  exact chairman_membership_preserved ⟨["a", "b"], "a"⟩ "a"
    (by decide) (by decide) (by decide)

/-! ### De-anonymization (`deAnonymizeText` in `Stage2.jsx`)

Texts, labels and model identifiers are modelled as `List Char`.
`text.replace(new RegExp(label, 'g'), repl)` is modelled as leftmost,
non-overlapping, global literal replacement, which is the JavaScript
behaviour whenever the label contains no regex metacharacter and the
replacement no `$` pattern (the labels the anonymizer actually produces,
`Response A`, `Response B`, ..., are of this kind).  The scan is written
with a structural fuel argument, always instantiated with the text's
length, so that it both terminates structurally and evaluates inside the
kernel. -/

/-- `isPrefOf pat s`: `pat` is a prefix of `s`. -/
def isPrefOf : List Char → List Char → Bool
  | [], _ => true
  | _ :: _, [] => false
  | a :: as, b :: bs => decide (a = b) && isPrefOf as bs

/-- `containsSub pat s`: `pat` occurs as a contiguous substring of `s`. -/
def containsSub : List Char → List Char → Bool
  | pat, [] => pat.isEmpty
  | pat, c :: rest => isPrefOf pat (c :: rest) || containsSub pat rest

/-- JavaScript global replacement for the empty pattern: an empty global
regex matches at every position, so `repl` is inserted at every gap. -/
def replaceEmptyPat (repl : List Char) : List Char → List Char
  | [] => repl
  | c :: rest => repl ++ c :: replaceEmptyPat repl rest

/-- Fuelled left-to-right scan of the global replacement of the nonempty
pattern `p :: ps` by `repl`: on a match, emit `repl` and resume after the
matched characters; otherwise keep the head character.  With
`fuel = s.length` the fuel never runs out, so the exhaustion branch
(returning the remaining text) is unreachable. -/
def replaceGoF (p : Char) (ps repl : List Char) : Nat → List Char → List Char
  | _, [] => []
  | 0, c :: rest => c :: rest
  | fuel + 1, c :: rest =>
    if isPrefOf (p :: ps) (c :: rest) then
      repl ++ replaceGoF p ps repl fuel (rest.drop ps.length)
    else
      c :: replaceGoF p ps repl fuel rest

/-- `s.replace(new RegExp(pat, 'g'), repl)` for a metacharacter-free
literal pattern `pat`. -/
def jsReplaceAll (pat repl s : List Char) : List Char :=
  match pat with
  | [] => replaceEmptyPat repl s
  | p :: ps => replaceGoF p ps repl s.length s

/-- `model.split('/')` on character lists (split at each `/`). -/
def splitOnChar (sep : Char) : List Char → List (List Char)
  | [] => [[]]
  | c :: rest =>
    if c = sep then [] :: splitOnChar sep rest
    else
      match splitOnChar sep rest with
      | [] => [[c]]
      | h :: t => (c :: h) :: t

/-- `model.split('/')[1] || model`: the part after the first slash, or the
whole identifier when there is no such (nonempty) part. -/
def shortName (m : List Char) : List Char :=
  match splitOnChar '/' m with
  | _ :: second :: _ => if second.isEmpty then m else second
  | _ => m

/-- The replacement text the code substitutes for a label:
`**${modelShortName}**`. -/
def boldShort (m : List Char) : List Char :=
  '*' :: '*' :: (shortName m ++ ['*', '*'])

/-- One pass of the `Object.entries(labelToModel).forEach` loop:
`result = result.replace(new RegExp(label, 'g'), '**' + short + '**')`. -/
def deStep (result : List Char) (lm : List Char × List Char) : List Char :=
  jsReplaceAll lm.1 (boldShort lm.2) result

/-- `deAnonymizeText(text, labelToModel)`: identity when the map is absent
(`if (!labelToModel) return text`), otherwise one global replacement per
map entry, in entry order. -/
def deAnonymizeText (text : List Char)
    (labelToModel : Option (List (List Char × List Char))) : List Char :=
  match labelToModel with
  | none => text
  | some entries => entries.foldl deStep text

lemma isPrefOf_iff : ∀ pat s : List Char,
    isPrefOf pat s = true ↔ ∃ t, s = pat ++ t
  | [], s => by simp [isPrefOf]
  | a :: as, [] => by simp [isPrefOf]
  | a :: as, b :: bs => by
    simp only [isPrefOf, Bool.and_eq_true, decide_eq_true_eq]
    constructor
    · rintro ⟨rfl, h⟩
      obtain ⟨t, ht⟩ := (isPrefOf_iff as bs).mp h
      exact ⟨t, by rw [ht]; rfl⟩
    · rintro ⟨t, ht⟩
      injection ht with h1 h2
      exact ⟨h1.symm, (isPrefOf_iff as bs).mpr ⟨t, h2⟩⟩

lemma isPrefOf_append_self : ∀ t u : List Char, isPrefOf t (t ++ u) = true
  | [], u => rfl
  | a :: as, u => by simp [isPrefOf, isPrefOf_append_self as u]

lemma containsSub_iff : ∀ pat s : List Char,
    containsSub pat s = true ↔ ∃ xs zs, s = xs ++ (pat ++ zs)
  | pat, [] => by
    simp only [containsSub, List.isEmpty_iff]
    constructor
    · rintro rfl
      exact ⟨[], [], rfl⟩
    · rintro ⟨xs, zs, h⟩
      rcases List.append_eq_nil.mp h.symm with ⟨rfl, h2⟩
      exact (List.append_eq_nil.mp h2).1
  | pat, c :: rest => by
    simp only [containsSub, Bool.or_eq_true]
    rw [isPrefOf_iff, containsSub_iff pat rest]
    constructor
    · rintro (⟨t, ht⟩ | ⟨xs, zs, h⟩)
      · exact ⟨[], t, by simpa using ht⟩
      · exact ⟨c :: xs, zs, by rw [h]; rfl⟩
    · rintro ⟨xs, zs, h⟩
      match xs, h with
      | [], h => exact Or.inl ⟨zs, by simpa using h⟩
      | x :: xs', h =>
        have h' : c :: rest = x :: (xs' ++ (pat ++ zs)) := by simpa using h
        injection h' with h1 h2
        exact Or.inr ⟨xs', zs, h2⟩

lemma containsSub_drop {pat s : List Char} {n : Nat}
    (h : containsSub pat (List.drop n s) = true) : containsSub pat s = true := by
  obtain ⟨xs, zs, hd⟩ := (containsSub_iff _ _).mp h
  refine (containsSub_iff _ _).mpr ⟨List.take n s ++ xs, zs, ?_⟩
  calc s = List.take n s ++ List.drop n s := (List.take_append_drop n s).symm
    _ = List.take n s ++ (xs ++ (pat ++ zs)) := by rw [hd]
    _ = (List.take n s ++ xs) ++ (pat ++ zs) := (List.append_assoc _ _ _).symm

lemma containsSub_nil_left : ∀ s : List Char, containsSub [] s = true
  | [] => rfl
  | _ :: _ => by simp [containsSub, isPrefOf]

/-- If the output of a replacement scan starts with a block `t` of
characters foreign to `repl`, then `t` was already a prefix of the
input. -/
lemma replaceGoF_starts_with {p : Char} {ps repl : List Char}
    (hrepl : repl ≠ []) :
    ∀ (s : List Char) (fuel : Nat) (t zs : List Char),
      s.length ≤ fuel → (∀ a ∈ t, a ∉ repl) →
      replaceGoF p ps repl fuel s = t ++ zs → isPrefOf t s = true
  | [], fuel, t, zs, _, _, h => by
    have h0 : replaceGoF p ps repl fuel [] = [] := by cases fuel <;> rfl
    rw [h0] at h
    rcases List.append_eq_nil.mp h.symm with ⟨rfl, _⟩
    rfl
  | c :: rest, 0, t, zs, hf, _, _ => by simp at hf
  | c :: rest, fuel + 1, t, zs, hf, hdisj, h => by
    by_cases hm : isPrefOf (p :: ps) (c :: rest) = true
    · rw [replaceGoF, if_pos hm] at h
      match t with
      | [] => rfl
      | d :: ds =>
        match repl, hrepl with
        | r :: rs, _ =>
          injection h with h1 h2
          exact absurd (h1 ▸ List.mem_cons_self r rs)
            (hdisj d (List.mem_cons_self d ds))
    · rw [replaceGoF, if_neg hm] at h
      match t with
      | [] => rfl
      | d :: ds =>
        injection h with h1 h2
        have ih := replaceGoF_starts_with hrepl rest fuel ds zs
          (by simpa using hf) (fun a ha => hdisj a (List.mem_cons_of_mem d ha)) h2
        simp [isPrefOf, ih, h1]

/-- The replacement scan for the pattern itself: no occurrence of the
pattern survives in the output, provided the pattern and the replacement
share no character. -/
lemma replaceGoF_no_self_occ {p : Char} {ps repl : List Char}
    (hrepl : repl ≠ []) (hdisj : ∀ a ∈ p :: ps, a ∉ repl) :
    ∀ (n : Nat) (s : List Char) (fuel : Nat), s.length ≤ n → s.length ≤ fuel →
      containsSub (p :: ps) (replaceGoF p ps repl fuel s) = false := by
  intro n
  induction n with
  | zero =>
    intro s fuel hn _
    have hs : s = [] := List.length_eq_zero.mp (Nat.le_zero.mp hn)
    subst hs
    cases fuel <;> simp [replaceGoF, containsSub]
  | succ n ih =>
    intro s fuel hn hf
    match s, fuel with
    | [], _ => cases fuel <;> simp [replaceGoF, containsSub]
    | c :: rest, 0 => simp at hf
    | c :: rest, fuel + 1 =>
      by_cases hm : isPrefOf (p :: ps) (c :: rest) = true
      · rw [replaceGoF, if_pos hm]
        by_contra hcon
        have hcon := Bool.ne_false_iff.mp hcon
        obtain ⟨xs, zs, hsplit⟩ := (containsSub_iff _ _).mp hcon
        have hrec :
            containsSub (p :: ps)
              (replaceGoF p ps repl fuel (rest.drop ps.length))
              = false := by
          apply ih
          · simp only [List.length_drop]
            simp only [List.length_cons] at hn
            omega
          · simp only [List.length_drop]
            simp only [List.length_cons] at hf
            omega
        rcases List.append_eq_append_iff.mp hsplit with
          ⟨a', hx, hy⟩ | ⟨c', hr, hd⟩
        · have : containsSub (p :: ps)
              (replaceGoF p ps repl fuel (rest.drop ps.length))
              = true := (containsSub_iff _ _).mpr ⟨a', zs, hy⟩
          rw [hrec] at this
          exact Bool.false_ne_true this
        · match c', hd with
          | [], hd =>
            have : containsSub (p :: ps)
                (replaceGoF p ps repl fuel (rest.drop ps.length))
                = true := (containsSub_iff _ _).mpr ⟨[], zs, by simpa using hd.symm⟩
            rw [hrec] at this
            exact Bool.false_ne_true this
          | d :: ds, hd =>
            have hd' : p :: (ps ++ zs) =
                d :: (ds ++ replaceGoF p ps repl fuel
                  (rest.drop ps.length)) := by simpa using hd
            injection hd' with h1 h2
            have hdin : d ∈ repl := by
              rw [hr]
              exact List.mem_append.mpr (Or.inr (List.mem_cons_self d ds))
            exact absurd (h1 ▸ hdin) (hdisj p (List.mem_cons_self p ps))
      · rw [replaceGoF, if_neg hm]
        by_contra hcon
        have hcon := Bool.ne_false_iff.mp hcon
        obtain ⟨xs, zs, hsplit⟩ := (containsSub_iff _ _).mp hcon
        match xs, hsplit with
        | [], hsplit =>
          have hsplit' : c :: replaceGoF p ps repl fuel rest =
              p :: (ps ++ zs) := by simpa using hsplit
          injection hsplit' with h1 h2
          have hpref : isPrefOf ps rest = true :=
            replaceGoF_starts_with hrepl rest fuel ps zs
              (by simpa using hf)
              (fun a ha => hdisj a (List.mem_cons_of_mem p ha)) h2
          exact hm (by simp [isPrefOf, hpref, h1])
        | x :: xs', hsplit =>
          have hsplit' : c :: replaceGoF p ps repl fuel rest =
              x :: (xs' ++ ((p :: ps) ++ zs)) := by simpa using hsplit
          injection hsplit' with h1 h2
          have : containsSub (p :: ps) (replaceGoF p ps repl fuel rest) = true :=
            (containsSub_iff _ _).mpr ⟨xs', zs, h2⟩
          have hrec : containsSub (p :: ps) (replaceGoF p ps repl fuel rest)
              = false := by
            apply ih
            · simp only [List.length_cons] at hn; omega
            · simp only [List.length_cons] at hf; omega
          rw [hrec] at this
          exact Bool.false_ne_true this

/-- The replacement scan creates no occurrence of another pattern `pat'`
foreign to `repl`: if `pat'` did not occur in the input it does not occur
in the output. -/
lemma replaceGoF_no_new_occ {p : Char} {ps repl pat' : List Char}
    (hrepl : repl ≠ []) (hpat' : pat' ≠ []) (hdisj : ∀ a ∈ pat', a ∉ repl) :
    ∀ (n : Nat) (s : List Char) (fuel : Nat), s.length ≤ n → s.length ≤ fuel →
      containsSub pat' s = false →
      containsSub pat' (replaceGoF p ps repl fuel s) = false := by
  intro n
  induction n with
  | zero =>
    intro s fuel hn _ hno
    have hs : s = [] := List.length_eq_zero.mp (Nat.le_zero.mp hn)
    subst hs
    cases fuel <;> simpa [replaceGoF] using hno
  | succ n ih =>
    intro s fuel hn hf hno
    match s, fuel with
    | [], _ => cases fuel <;> simpa [replaceGoF] using hno
    | c :: rest, 0 => simp at hf
    | c :: rest, fuel + 1 =>
      have hno' : isPrefOf pat' (c :: rest) = false
          ∧ containsSub pat' rest = false := by
        have := hno
        simp only [containsSub, Bool.or_eq_false_iff] at this
        exact this
      by_cases hm : isPrefOf (p :: ps) (c :: rest) = true
      · rw [replaceGoF, if_pos hm]
        by_contra hcon
        have hcon := Bool.ne_false_iff.mp hcon
        obtain ⟨xs, zs, hsplit⟩ := (containsSub_iff _ _).mp hcon
        have hnodrop : containsSub pat' (rest.drop ps.length) = false := by
          by_contra hcc
          have hcc := Bool.ne_false_iff.mp hcc
          have := containsSub_drop (s := rest) hcc
          rw [hno'.2] at this
          exact Bool.false_ne_true this
        have hrec : containsSub pat'
            (replaceGoF p ps repl fuel (rest.drop ps.length))
            = false := by
          apply ih
          · simp only [List.length_drop]
            simp only [List.length_cons] at hn
            omega
          · simp only [List.length_drop]
            simp only [List.length_cons] at hf
            omega
          · exact hnodrop
        rcases List.append_eq_append_iff.mp hsplit with
          ⟨a', hx, hy⟩ | ⟨c', hr, hd⟩
        · have : containsSub pat'
              (replaceGoF p ps repl fuel (rest.drop ps.length))
              = true := (containsSub_iff _ _).mpr ⟨a', zs, hy⟩
          rw [hrec] at this
          exact Bool.false_ne_true this
        · match c', hd with
          | [], hd =>
            have : containsSub pat'
                (replaceGoF p ps repl fuel (rest.drop ps.length))
                = true := (containsSub_iff _ _).mpr ⟨[], zs, by simpa using hd.symm⟩
            rw [hrec] at this
            exact Bool.false_ne_true this
          | d :: ds, hd =>
            match pat', hpat', hdisj, hd with
            | q :: qs, _, hdisj, hd =>
              have hd' : q :: (qs ++ zs) =
                  d :: (ds ++ replaceGoF p ps repl fuel
                    (rest.drop ps.length)) := by simpa using hd
              injection hd' with h1 h2
              have hdin : d ∈ repl := by
                rw [hr]
                exact List.mem_append.mpr (Or.inr (List.mem_cons_self d ds))
              exact absurd (h1 ▸ hdin) (hdisj q (List.mem_cons_self q qs))
      · rw [replaceGoF, if_neg hm]
        by_contra hcon
        have hcon := Bool.ne_false_iff.mp hcon
        obtain ⟨xs, zs, hsplit⟩ := (containsSub_iff _ _).mp hcon
        match xs, hsplit with
        | [], hsplit =>
          match pat', hpat', hdisj, hno', hsplit with
          | q :: qs, _, hdisj, hno', hsplit =>
            have hsplit' : c :: replaceGoF p ps repl fuel rest =
                q :: (qs ++ zs) := by simpa using hsplit
            injection hsplit' with h1 h2
            have hpref : isPrefOf qs rest = true :=
              replaceGoF_starts_with hrepl rest fuel qs zs
                (by simpa using hf)
                (fun a ha => hdisj a (List.mem_cons_of_mem q ha)) h2
            have : isPrefOf (q :: qs) (c :: rest) = true := by
              simp [isPrefOf, hpref, h1]
            rw [hno'.1] at this
            exact Bool.false_ne_true this
        | x :: xs', hsplit =>
          have hsplit' : c :: replaceGoF p ps repl fuel rest =
              x :: (xs' ++ (pat' ++ zs)) := by simpa using hsplit
          injection hsplit' with h1 h2
          have : containsSub pat' (replaceGoF p ps repl fuel rest) = true :=
            (containsSub_iff _ _).mpr ⟨xs', zs, h2⟩
          have hrec : containsSub pat' (replaceGoF p ps repl fuel rest)
              = false := by
            apply ih
            · simp only [List.length_cons] at hn; omega
            · simp only [List.length_cons] at hf; omega
            · exact hno'.2
          rw [hrec] at this
          exact Bool.false_ne_true this

/-- A text without any occurrence of the (nonempty) pattern is a fixed
point of the replacement scan. -/
lemma replaceGoF_of_no_occ {p : Char} {ps repl : List Char} :
    ∀ (s : List Char) (fuel : Nat), s.length ≤ fuel →
      containsSub (p :: ps) s = false → replaceGoF p ps repl fuel s = s
  | [], fuel, _, _ => by cases fuel <;> rfl
  | c :: rest, 0, hf, _ => by simp at hf
  | c :: rest, fuel + 1, hf, h => by
    have hparts : isPrefOf (p :: ps) (c :: rest) = false
        ∧ containsSub (p :: ps) rest = false := by
      simpa only [containsSub, Bool.or_eq_false_iff] using h
    rw [replaceGoF, if_neg (by simp [hparts.1])]
    rw [replaceGoF_of_no_occ rest fuel (by simpa using hf) hparts.2]

/-- A text without any occurrence of the pattern is a fixed point of
`jsReplaceAll`. -/
lemma jsReplaceAll_of_no_occ {pat repl s : List Char}
    (h : containsSub pat s = false) : jsReplaceAll pat repl s = s := by
  match pat with
  | [] =>
    have := containsSub_nil_left s
    rw [h] at this
    exact absurd this Bool.false_ne_true
  | p :: ps => exact replaceGoF_of_no_occ s s.length le_rfl h

lemma boldShort_ne_nil (m : List Char) : boldShort m ≠ [] := by
  simp [boldShort]

/-- A text in which no label of the map occurs is a fixed point of the
whole de-anonymization fold. -/
lemma foldl_deStep_fixed :
    ∀ (entries : List (List Char × List Char)) (t : List Char),
      (∀ lm ∈ entries, containsSub lm.1 t = false) →
      List.foldl deStep t entries = t
  | [], t, _ => rfl
  | e :: es, t, h => by
    have h1 : deStep t e = t :=
      jsReplaceAll_of_no_occ (h e (List.mem_cons_self e es))
    rw [List.foldl_cons, h1]
    exact foldl_deStep_fixed es t (fun lm hm => h lm (List.mem_cons_of_mem e hm))

/-- Absence of a label is preserved by the remaining passes of the fold,
as long as the label shares no character with any replacement text. -/
lemma foldl_deStep_no_occ {L : List Char} (hL : L ≠ []) :
    ∀ (es : List (List Char × List Char)) (t : List Char),
      (∀ lm ∈ es, lm.1 ≠ []) →
      (∀ lm ∈ es, ∀ a ∈ L, a ∉ boldShort lm.2) →
      containsSub L t = false →
      containsSub L (List.foldl deStep t es) = false
  | [], t, _, _, h => h
  | e :: es, t, hne, hdisj, h => by
    rw [List.foldl_cons]
    apply foldl_deStep_no_occ hL es (deStep t e)
      (fun lm hm => hne lm (List.mem_cons_of_mem e hm))
      (fun lm hm => hdisj lm (List.mem_cons_of_mem e hm))
    match he : e.1, hne e (List.mem_cons_self e es) with
    | q :: qs, _ =>
      show containsSub L (jsReplaceAll e.1 (boldShort e.2) t) = false
      rw [he]
      exact replaceGoF_no_new_occ (boldShort_ne_nil e.2) hL
        (hdisj e (List.mem_cons_self e es)) t.length t t.length le_rfl le_rfl h

/-- After the full de-anonymization fold, no label of the map occurs in
the result, provided every label is nonempty and shares no character with
any replacement text `**short**`. -/
lemma foldl_deStep_all_no_occ :
    ∀ (entries : List (List Char × List Char)) (t : List Char),
      (∀ lm ∈ entries, lm.1 ≠ []) →
      (∀ lm lm', lm ∈ entries → lm' ∈ entries → ∀ a ∈ lm.1, a ∉ boldShort lm'.2) →
      ∀ lm ∈ entries, containsSub lm.1 (List.foldl deStep t entries) = false
  | [], t, _, _ => fun lm hm => absurd hm (List.not_mem_nil lm)
  | e :: es, t, hne, hdisj => by
    intro lm hm
    rw [List.foldl_cons]
    rcases List.mem_cons.mp hm with rfl | hm'
    · apply foldl_deStep_no_occ (hne lm (List.mem_cons_self lm es)) es (deStep t lm)
        (fun x hx => hne x (List.mem_cons_of_mem lm hx))
        (fun x hx => hdisj lm x (List.mem_cons_self lm es) (List.mem_cons_of_mem lm hx))
      obtain ⟨q, qs, he⟩ : ∃ q qs, lm.1 = q :: qs := by
        cases hq : lm.1 with
        | nil => exact absurd hq (hne lm (List.mem_cons_self lm es))
        | cons q qs => exact ⟨q, qs, rfl⟩
      show containsSub lm.1 (jsReplaceAll lm.1 (boldShort lm.2) t) = false
      rw [he]
      exact replaceGoF_no_self_occ (boldShort_ne_nil lm.2)
        (he ▸ hdisj lm lm (List.mem_cons_self lm es) (List.mem_cons_self lm es))
        t.length t t.length le_rfl le_rfl
    · exact foldl_deStep_all_no_occ es (deStep t e)
        (fun x hx => hne x (List.mem_cons_of_mem e hx))
        (fun x y hx hy => hdisj x y (List.mem_cons_of_mem e hx)
          (List.mem_cons_of_mem e hy)) lm hm'

/-- The fuel is mere bookkeeping: any two adequate fuels produce the same
scan result. -/
lemma replaceGoF_fuel_irrel {p : Char} {ps repl : List Char} :
    ∀ (n : Nat) (s : List Char) (f1 f2 : Nat),
      s.length ≤ n → s.length ≤ f1 → s.length ≤ f2 →
      replaceGoF p ps repl f1 s = replaceGoF p ps repl f2 s := by
  intro n
  induction n with
  | zero =>
    intro s f1 f2 hn _ _
    have hs : s = [] := List.length_eq_zero.mp (Nat.le_zero.mp hn)
    subst hs
    cases f1 <;> cases f2 <;> rfl
  | succ n ih =>
    intro s f1 f2 hn h1 h2
    match s, f1, f2 with
    | [], f1, f2 => cases f1 <;> cases f2 <;> rfl
    | c :: rest, 0, _ => simp at h1
    | c :: rest, _ + 1, 0 => simp at h2
    | c :: rest, f1 + 1, f2 + 1 =>
      by_cases hm : isPrefOf (p :: ps) (c :: rest) = true
      · rw [replaceGoF, replaceGoF, if_pos hm, if_pos hm]
        congr 1
        apply ih
        · simp only [List.length_drop]
          simp only [List.length_cons] at hn
          omega
        · simp only [List.length_drop]
          simp only [List.length_cons] at h1
          omega
        · simp only [List.length_drop]
          simp only [List.length_cons] at h2
          omega
      · rw [replaceGoF, replaceGoF, if_neg hm, if_neg hm]
        congr 1
        apply ih
        · simp only [List.length_cons] at hn; omega
        · simp only [List.length_cons] at h1; omega
        · simp only [List.length_cons] at h2; omega

/-- A leading occurrence of the pattern is substituted by `repl` and the
scan resumes right after it. -/
lemma replaceGoF_cons_match {q : Char} {qs repl zs : List Char} (fuel : Nat) :
    replaceGoF q qs repl (fuel + 1) ((q :: qs) ++ zs) =
      repl ++ replaceGoF q qs repl fuel zs := by
  have hpref : isPrefOf (q :: qs) ((q :: qs) ++ zs) = true :=
    isPrefOf_append_self _ _
  show replaceGoF q qs repl (fuel + 1) (q :: (qs ++ zs)) = _
  rw [replaceGoF, if_pos (by simpa using hpref)]
  congr 1
  rw [List.drop_left]

/-- C5 counterexample.  `deAnonymizeText` is not idempotent for every map:
with the map `{"A" ↦ "x/A"}` (short name "A"), the text "A" becomes
`**A**` after one application and `****A****` after two, because the
substituted short name reintroduces the label. -/
theorem deanonymize_not_idempotent :
    deAnonymizeText
        (deAnonymizeText ("A".toList) (some [("A".toList, "x/A".toList)]))
        (some [("A".toList, "x/A".toList)])
      ≠ deAnonymizeText ("A".toList) (some [("A".toList, "x/A".toList)]) := by
  decide

/-- C5 (amended).  `deAnonymizeText` is idempotent whenever the output of
the first application contains no remaining occurrence of any label of the
map (as is the case for the canonical labels `Response A`, `Response B`,
... and model short names not containing them); with an absent map it is
the identity, hence trivially idempotent. -/
theorem deanonymize_idempotent_amended
    (entries : List (List Char × List Char)) (text : List Char)
    (h : ∀ lm ∈ entries,
      containsSub lm.1 (deAnonymizeText text (some entries)) = false) :
    deAnonymizeText (deAnonymizeText text (some entries)) (some entries)
      = deAnonymizeText text (some entries)
    ∧ deAnonymizeText (deAnonymizeText text none) none
      = deAnonymizeText text none := by
  constructor
  · exact foldl_deStep_fixed entries _ h
  · rfl

/-- Witness for C5 at concrete inputs: one pass over "hi Response A" with
the map `{"Response A" ↦ "x/4.1"}` leaves no label, so the second pass is
the identity. -/
theorem deanonymize_idempotent_amended_witness :
    deAnonymizeText
        (deAnonymizeText ("hi Response A".toList)
          (some [("Response A".toList, "x/4.1".toList)]))
        (some [("Response A".toList, "x/4.1".toList)])
      = deAnonymizeText ("hi Response A".toList)
          (some [("Response A".toList, "x/4.1".toList)])
    ∧ deAnonymizeText (deAnonymizeText ("hi Response A".toList) none) none
      = deAnonymizeText ("hi Response A".toList) none :=
  deanonymize_idempotent_amended [("Response A".toList, "x/4.1".toList)]
    ("hi Response A".toList) (by decide)

/-- C6 counterexample.  The transform substitutes a label occurrence with
the model's short name WRAPPED IN `**` (here `**b**`, not the short name
`b`); moreover a label substring can remain in the output when a short
name contains a label (map `{"A" ↦ "x/hAt"}` on text "A" yields `**hAt**`,
in which the label "A" still occurs), contradicting the claim that every
literal label occurrence is substituted away by the short name. -/
theorem deanonymize_completeness_cex :
    deAnonymizeText ("A".toList) (some [("A".toList, "x/b".toList)])
        = "**b**".toList
    ∧ "**b**".toList ≠ shortName ("x/b".toList)
    ∧ containsSub ("A".toList)
        (deAnonymizeText ("A".toList) (some [("A".toList, "x/hAt".toList)]))
        = true := by
  refine ⟨by decide, by decide, by decide⟩

/-- C6 (amended).  The transform (i) is the identity when the map is
absent, (ii) does not alter a text containing no occurrence of any label,
(iii) substitutes each occurrence of a label, scanning left to right, with
the model's short name wrapped in `**` markers, and (iv) leaves no
occurrence of any label in its output provided every label is nonempty and
shares no character with any substituted replacement text `**short**`. -/
theorem deanonymize_text_transform :
    (∀ t : List Char, deAnonymizeText t none = t)
    ∧ (∀ (entries : List (List Char × List Char)) (t : List Char),
        (∀ lm ∈ entries, containsSub lm.1 t = false) →
        deAnonymizeText t (some entries) = t)
    ∧ (∀ (q : Char) (qs M zs : List Char),
        deAnonymizeText ((q :: qs) ++ zs) (some [(q :: qs, M)]) =
          boldShort M ++ jsReplaceAll (q :: qs) (boldShort M) zs)
    ∧ (∀ (entries : List (List Char × List Char)) (t : List Char),
        (∀ lm ∈ entries, lm.1 ≠ []) →
        (∀ lm lm', lm ∈ entries → lm' ∈ entries →
          ∀ a ∈ lm.1, a ∉ boldShort lm'.2) →
        ∀ lm ∈ entries,
          containsSub lm.1 (deAnonymizeText t (some entries)) = false) := by
  refine ⟨fun t => rfl, ?_, ?_, ?_⟩
  · intro entries t h
    exact foldl_deStep_fixed entries t h
  · intro q qs M zs
    show replaceGoF q qs (boldShort M) ((q :: qs) ++ zs).length ((q :: qs) ++ zs)
      = boldShort M ++ replaceGoF q qs (boldShort M) zs.length zs
    have hlen : ((q :: qs) ++ zs).length = (qs.length + zs.length) + 1 := by
      simp only [List.length_append, List.length_cons]
      omega
    rw [hlen, replaceGoF_cons_match]
    congr 1
    exact replaceGoF_fuel_irrel zs.length zs _ _ le_rfl (by omega) le_rfl
  · intro entries t hne hdisj lm hm
    exact foldl_deStep_all_no_occ entries t hne hdisj lm hm

/-- Witness for C6 at concrete inputs: a label-free text is unchanged; a
text starting with the label "Response A" has it substituted by
`**gpt**`; and the map `{"Response A" ↦ "x/4.1"}` leaves no label
occurrence in its output. -/
theorem deanonymize_text_transform_witness :
    deAnonymizeText ("no labels".toList)
        (some [("Response A".toList, "x/4.1".toList)]) = "no labels".toList
    ∧ deAnonymizeText (("Response A".toList) ++ ("!".toList))
        (some [("Response A".toList, "openai/gpt".toList)]) =
        boldShort ("openai/gpt".toList) ++
          jsReplaceAll ("Response A".toList) (boldShort ("openai/gpt".toList))
            ("!".toList)
    ∧ containsSub ("Response A".toList)
        (deAnonymizeText ("hi Response A".toList)
          (some [("Response A".toList, "x/4.1".toList)])) = false := by
  refine ⟨?_, ?_, ?_⟩
  · exact deanonymize_text_transform.2.1 _ _ (by decide)
  · exact deanonymize_text_transform.2.2.1 'R' ("esponse A".toList)
      ("openai/gpt".toList) ("!".toList)
  · exact deanonymize_text_transform.2.2.2
      [("Response A".toList, "x/4.1".toList)] ("hi Response A".toList)
      (by decide)
      (by
        intro lm lm' hlm hlm'
        simp only [List.mem_singleton] at hlm hlm'
        subst hlm
        subst hlm'
        decide)
      ("Response A".toList, "x/4.1".toList) (by decide)

end LlmCouncil
